import Mathlib

/-!
Shallow embedding of the core of `repo_read_mcp` (the Seagoat orchestrator in
`src/repo_read_mcp/seagoat.py` and `Repository.read_file_lines` in
`repo_read_mcp/repository.py`), together with theorems checking the
natural-language specification against it.

Strings are modelled as `List Char`; Python integers as `Int`.
-/

namespace RepoReadMcp

/-! ### Python string primitives used by the source -/

/-- Whitespace characters removed by Python's `str.strip()` (ASCII subset). -/
def isPySpace (c : Char) : Bool :=
  c == ' ' || c == '\t' || c == '\n' || c == '\r' || c == '\x0b' || c == '\x0c'

/-- Python `str.strip()`: drop leading and trailing whitespace. -/
def pyStrip (l : List Char) : List Char :=
  ((l.dropWhile isPySpace).reverse.dropWhile isPySpace).reverse

/-- Python `str.split(sep)` for a one-character separator: splits on every
occurrence; the empty string yields `[""]`. -/
def splitOnChar (sep : Char) : List Char → List (List Char)
  | [] => [[]]
  | c :: cs =>
    if c == sep then [] :: splitOnChar sep cs
    else
      match splitOnChar sep cs with
      | [] => [[c]]
      | p :: ps => (c :: p) :: ps

/-- Split off the part before the first occurrence of `sep`, if any. -/
def splitOnce (sep : Char) : List Char → Option (List Char × List Char)
  | [] => none
  | c :: cs =>
    if c == sep then some ([], cs)
    else (splitOnce sep cs).map (fun p => (c :: p.1, p.2))

/-- Python `line.split(sep, 2)`: at most two splits, hence 1–3 parts. -/
def pySplit2 (sep : Char) (l : List Char) : List (List Char) :=
  match splitOnce sep l with
  | none => [l]
  | some (a, rest) =>
    match splitOnce sep rest with
    | none => [a, rest]
    | some (b, c) => [a, b, c]

def isPyDigit (c : Char) : Bool := '0' ≤ c && c ≤ '9'

def digitVal (c : Char) : Nat := c.toNat - '0'.toNat

/-- Digits of a Python `int()` literal after the first digit: single
underscores are allowed between digits only. -/
def pyDigitsAux (acc : Nat) : List Char → Option Nat
  | [] => some acc
  | '_' :: [] => none
  | '_' :: d :: ds =>
    if isPyDigit d then pyDigitsAux (acc * 10 + digitVal d) ds else none
  | d :: ds =>
    if isPyDigit d then pyDigitsAux (acc * 10 + digitVal d) ds else none

def pyDigits : List Char → Option Nat
  | [] => none
  | d :: ds => if isPyDigit d then pyDigitsAux (digitVal d) ds else none

/-- Python `int(s)`: strip whitespace, optional sign, digit run. `none` models
the `ValueError` branch. -/
def pyInt (s : List Char) : Option Int :=
  match pyStrip s with
  | '+' :: r => (pyDigits r).map (fun n => (n : Int))
  | '-' :: r => (pyDigits r).map (fun n => -(n : Int))
  | r => (pyDigits r).map (fun n => (n : Int))

/-- Test that `l` starts with `p`. -/
def listPre : List Char → List Char → Bool
  | [], _ => true
  | _ :: _, [] => false
  | a :: as, b :: bs => a == b && listPre as bs

/-- Python `sub in l` on strings: substring occurrence. -/
def pyIn (sub : List Char) : List Char → Bool
  | [] => sub == []
  | c :: rest => listPre sub (c :: rest) || pyIn sub rest

/-! ### Result parser (`Seagoat._parse_search_results`) -/

/-- One parsed search hit, as built by `_parse_search_results`. -/
structure SearchHit where
  file : List Char
  start_line : Int
  end_line : Int
  code : List Char
deriving Repr, DecidableEq

/-- The `for line in output.strip().split('\n')` loop body of
`_parse_search_results`, carried over the remaining lines with the
accumulated `results` list and the `current_chunk` accumulator. -/
def parseLoop : List (List Char) → List SearchHit → Option SearchHit →
    List SearchHit × Option SearchHit
  | [], results, cur => (results, cur)
  | line :: rest, results, cur =>
    if line == [] then parseLoop rest results cur
    else
      match pySplit2 ':' line with
      | [file_path, line_num_str, code] =>
        match pyInt line_num_str with
        | none => parseLoop rest results cur
        | some line_num =>
          match cur with
          | some ch =>
            if ch.file == file_path && ch.end_line + 1 == line_num then
              parseLoop rest results
                (some { ch with end_line := line_num,
                                code := ch.code ++ '\n' :: code })
            else
              parseLoop rest (results ++ [ch])
                (some ⟨file_path, line_num, line_num, code⟩)
          | none =>
            parseLoop rest results (some ⟨file_path, line_num, line_num, code⟩)
      | _ => parseLoop rest results cur

/-- Transliteration of `Seagoat._parse_search_results` from `seagoat.py`. -/
def parse_search_results (output : List Char) : List SearchHit :=
  match parseLoop (splitOnChar '\n' (pyStrip output)) [] none with
  | (results, some ch) => results ++ [ch]
  | (results, none) => results

/-! ### Spec-side reference parser (written from the spec's wording)

The spec describes `parse` in two phases: extract the valid
`<file>:<line>:<code>` triples (skipping blank lines and lines whose number
field fails integer parsing), then group maximal runs of strictly contiguous
same-file triples into hits. -/

/-- One valid input line `<file>:<line_number>:<code_text>`. -/
structure SLine where
  file : List Char
  num : Int
  text : List Char
deriving Repr, DecidableEq

/-- Spec phase 1, per line: split on the first two colons only; skip blank
lines, short lines and lines whose number field fails integer parsing. -/
def lineTriple (line : List Char) : Option SLine :=
  if line == [] then none
  else
    match pySplit2 ':' line with
    | [f, n, c] => (pyInt n).map (fun i => ⟨f, i, c⟩)
    | _ => none

/-- Spec phase 1: the valid triples of the raw output, in order. -/
def validLines (output : List Char) : List SLine :=
  (splitOnChar '\n' (pyStrip output)).filterMap lineTriple

/-- Spec contiguity: the next line extends the run iff same file and its
number is the predecessor's number plus one. -/
def lineContig (prev cur : SLine) : Bool :=
  prev.file == cur.file && prev.num + 1 == cur.num

/-- Group a list into maximal runs of elements chained by `ext`. -/
def runsOf (ext : α → α → Bool) : List α → List (List α)
  | [] => []
  | [a] => [[a]]
  | a :: b :: rest =>
    match runsOf ext (b :: rest) with
    | [] => [[a]]
    | r :: rs => if ext a b then (a :: r) :: rs else [a] :: r :: rs

/-- Join code lines with a single line break. -/
def joinNL : List (List Char) → List Char
  | [] => []
  | [x] => x
  | x :: y :: rest => x ++ '\n' :: joinNL (y :: rest)

/-- Spec phase 2: one hit from one nonempty run: file and start from the
first line, `end_line = start_line + (length - 1)`, code joined by a single
line break. -/
def hitOfRun : List SLine → SearchHit
  | [] => ⟨[], 0, 0, []⟩
  | t :: ts => ⟨t.file, t.num, t.num + ts.length, joinNL ((t :: ts).map SLine.text)⟩

/-- The parser as the spec words it: extract valid triples, group maximal
contiguous same-file runs, emit one hit per run in first-seen order. -/
def parse_spec (output : List Char) : List SearchHit :=
  (runsOf lineContig (validLines output)).map hitOfRun

/-! ### Bridge between the transliterated parser and the spec parser -/

/-- Start a new accumulator from one line (`start_line = end_line = num`). -/
def newChunk (t : SLine) : SearchHit := ⟨t.file, t.num, t.num, t.text⟩

/-- Extend the accumulator with a contiguous line. -/
def extChunk (ch : SearchHit) (t : SLine) : SearchHit :=
  { ch with end_line := t.num, code := ch.code ++ '\n' :: t.text }

/-- The loop `parseLoop`, restricted to the already-validated triples. -/
def tripleFold : List SLine → List SearchHit → Option SearchHit →
    List SearchHit × Option SearchHit
  | [], results, cur => (results, cur)
  | t :: ts, results, cur =>
    match cur with
    | some ch =>
      if ch.file == t.file && ch.end_line + 1 == t.num then
        tripleFold ts results (some (extChunk ch t))
      else
        tripleFold ts (results ++ [ch]) (some (newChunk t))
    | none => tripleFold ts results (some (newChunk t))

/-- Flush the pending accumulator after the last line. -/
def flushChunk : List SearchHit × Option SearchHit → List SearchHit
  | (results, some ch) => results ++ [ch]
  | (results, none) => results

/-- Absorb triples into an open accumulator, flushing on discontinuities. -/
def specAbsorb (ch : SearchHit) : List SLine → List SearchHit
  | [] => [ch]
  | t :: ts =>
    if ch.file == t.file && ch.end_line + 1 == t.num then
      specAbsorb (extChunk ch t) ts
    else
      ch :: specAbsorb (newChunk t) ts

/-- Split off the longest chain continuing file `f` after line number `n`. -/
def takeChain (f : List Char) (n : Int) : List SLine → List SLine × List SLine
  | [] => ([], [])
  | t :: ts =>
    if f == t.file && n + 1 == t.num then
      (t :: (takeChain f t.num ts).1, (takeChain f t.num ts).2)
    else ([], t :: ts)

/-- The code contributed by the continuation lines of a run. -/
def tailJoin : List SLine → List Char
  | [] => []
  | t :: ts => '\n' :: (t.text ++ tailJoin ts)

theorem parseLoop_eq_tripleFold (lines : List (List Char)) :
    ∀ results cur, parseLoop lines results cur =
      tripleFold (lines.filterMap lineTriple) results cur := by
  induction lines with
  | nil => intro results cur; rfl
  | cons line rest ih =>
    intro results cur
    by_cases hb : line == []
    · simp [parseLoop, hb, lineTriple, ih]
    · cases hs : pySplit2 ':' line with
      | nil =>
        simp [parseLoop, hb, hs, lineTriple, ih]
      | cons p1 ps =>
        cases ps with
        | nil => simp [parseLoop, hb, hs, lineTriple, ih]
        | cons p2 ps2 =>
          cases ps2 with
          | nil => simp [parseLoop, hb, hs, lineTriple, ih]
          | cons p3 ps3 =>
            cases ps3 with
            | nil =>
              cases hi : pyInt p2 with
              | none => simp [parseLoop, hb, hs, hi, lineTriple, ih]
              | some line_num =>
                cases cur with
                | none =>
                  simp [parseLoop, hb, hs, hi, lineTriple, ih, tripleFold,
                    newChunk]
                | some ch =>
                  by_cases hc : (ch.file == p1 && ch.end_line + 1 == line_num) = true
                  · simp [parseLoop, hb, hs, hi, hc, lineTriple, ih, tripleFold,
                      extChunk]
                  · simp [parseLoop, hb, hs, hi, lineTriple, ih, tripleFold,
                      newChunk, hc]
            | cons p4 ps4 => simp [parseLoop, hb, hs, lineTriple, ih]

theorem flush_tripleFold_some (ts : List SLine) :
    ∀ results ch, flushChunk (tripleFold ts results (some ch)) =
      results ++ specAbsorb ch ts := by
  induction ts with
  | nil => intro results ch; rfl
  | cons t ts ih =>
    intro results ch
    by_cases hc : (ch.file == t.file && ch.end_line + 1 == t.num) = true
    · simp [tripleFold, specAbsorb, hc, ih]
    · simp [tripleFold, specAbsorb, hc, ih]

theorem flush_tripleFold_none (ts : List SLine) (results : List SearchHit) :
    flushChunk (tripleFold ts results none) =
      results ++ (match ts with
                  | [] => []
                  | t :: ts => specAbsorb (newChunk t) ts) := by
  cases ts with
  | nil => simp [tripleFold, flushChunk]
  | cons t ts => simp [tripleFold, flush_tripleFold_some]

theorem joinNL_map_text (ts : List SLine) :
    ∀ x : List Char, joinNL (x :: ts.map SLine.text) = x ++ tailJoin ts := by
  induction ts with
  | nil => intro x; simp [joinNL, tailJoin]
  | cons u ts ih =>
    intro x
    simp only [List.map_cons, joinNL, tailJoin]
    rw [ih]

theorem runsOf_cons_chain (ts : List SLine) :
    ∀ t, runsOf lineContig (t :: ts) =
      (t :: (takeChain t.file t.num ts).1)
        :: runsOf lineContig (takeChain t.file t.num ts).2 := by
  induction ts with
  | nil => intro t; simp [runsOf, takeChain]
  | cons u ts ih =>
    intro t
    cases hc : t.file == u.file && t.num + 1 == u.num with
    | true =>
      have hf : t.file = u.file := by
        have h := hc
        simp only [Bool.and_eq_true, beq_iff_eq] at h
        exact h.1
      simp only [runsOf, ih u, lineContig, takeChain]
      simp only [hc]
      simp [hf]
    | false =>
      simp only [runsOf, ih u, lineContig, takeChain]
      simp only [hc]
      simp [ih u]

theorem specAbsorb_eq (ts : List SLine) :
    ∀ f s n c, specAbsorb ⟨f, s, n, c⟩ ts =
      ⟨f, s, n + ((takeChain f n ts).1).length, c ++ tailJoin (takeChain f n ts).1⟩
        :: (runsOf lineContig (takeChain f n ts).2).map hitOfRun := by
  induction ts with
  | nil => intro f s n c; simp [specAbsorb, takeChain, tailJoin, runsOf]
  | cons t ts ih =>
    intro f s n c
    cases hc : f == t.file && n + 1 == t.num with
    | true =>
      have hn : n + 1 = t.num := by
        have h := hc
        simp only [Bool.and_eq_true, beq_iff_eq] at h
        exact h.2
      simp only [specAbsorb, extChunk, takeChain, hc, if_true, ih]
      refine congrArg₂ _ ?_ rfl
      simp only [SearchHit.mk.injEq, true_and, List.length_cons, tailJoin]
      refine ⟨by push_cast; omega, by simp⟩
    | false =>
      have hft : ¬(false = true) := by decide
      simp only [specAbsorb, newChunk, takeChain, hc, if_neg hft,
        ih t.file t.num t.num t.text]
      rw [runsOf_cons_chain ts t]
      simp [hitOfRun, joinNL_map_text, tailJoin]

theorem specAbsorb_newChunk (t : SLine) (ts : List SLine) :
    specAbsorb (newChunk t) ts =
      (runsOf lineContig (t :: ts)).map hitOfRun := by
  rw [show newChunk t = ⟨t.file, t.num, t.num, t.text⟩ from rfl, specAbsorb_eq,
    runsOf_cons_chain ts t]
  simp [hitOfRun, joinNL_map_text]

theorem parse_eq_spec (output : List Char) :
    parse_search_results output = parse_spec output := by
  have h1 : parse_search_results output =
      flushChunk (parseLoop (splitOnChar '\n' (pyStrip output)) [] none) := by
    unfold parse_search_results flushChunk
    rfl
  rw [h1, parseLoop_eq_tripleFold, flush_tripleFold_none]
  unfold parse_spec validLines
  cases (splitOnChar '\n' (pyStrip output)).filterMap lineTriple with
  | nil => simp [runsOf]
  | cons t ts => simp [specAbsorb_newChunk t ts]

/-! ### Structural facts feeding the parser-invariant claim -/

theorem splitOnChar_not_mem (sep : Char) (l : List Char) :
    ∀ p ∈ splitOnChar sep l, sep ∉ p := by
  induction l with
  | nil =>
    intro p hp
    simp only [splitOnChar, List.mem_singleton] at hp
    subst hp
    exact List.not_mem_nil sep
  | cons c cs ih =>
    intro p hp
    by_cases hcs : (c == sep) = true
    · simp only [splitOnChar, hcs, if_true, List.mem_cons] at hp
      rcases hp with h | h
      · simp [h]
      · exact ih p h
    · simp only [splitOnChar, hcs] at hp
      have hcne : c ≠ sep := by
        intro h
        exact hcs (by simp [h])
      cases hsp : splitOnChar sep cs with
      | nil =>
        rw [hsp] at hp
        simp at hp
        subst hp
        intro hmem
        rcases List.mem_singleton.mp hmem with h
        exact hcne h.symm
      | cons p0 ps =>
        rw [hsp] at hp
        simp only [Bool.false_eq_true, if_false, List.mem_cons] at hp
        rcases hp with h | h
        · subst h
          intro hmem
          rcases List.mem_cons.mp hmem with h | h
          · exact hcne h.symm
          · exact ih p0 (by rw [hsp]; exact List.mem_cons_self p0 ps) h
        · exact ih p (by rw [hsp]; exact List.mem_cons_of_mem p0 h)

theorem splitOnce_subset (sep : Char) (l : List Char) :
    ∀ a b, splitOnce sep l = some (a, b) →
      (∀ x ∈ a, x ∈ l) ∧ (∀ x ∈ b, x ∈ l) := by
  induction l with
  | nil => intro a b h; simp [splitOnce] at h
  | cons c cs ih =>
    intro a b h
    by_cases hcs : (c == sep) = true
    · simp only [splitOnce, hcs, if_true, Option.some.injEq] at h
      obtain ⟨ha, hb⟩ := Prod.mk.injEq .. ▸ h
      constructor
      · intro x hx; rw [← ha] at hx; simp at hx
      · intro x hx; rw [← hb] at hx; exact List.mem_cons_of_mem c hx
    · simp only [splitOnce, hcs, Bool.false_eq_true, if_false] at h
      cases ho : splitOnce sep cs with
      | none => rw [ho] at h; simp at h
      | some p =>
        obtain ⟨q1, q2⟩ := p
        rw [ho] at h
        simp at h
        obtain ⟨ha, hb⟩ := h
        obtain ⟨h1, h2⟩ := ih q1 q2 ho
        constructor
        · intro x hx
          rw [← ha] at hx
          rcases List.mem_cons.mp hx with hx | hx
          · simp [hx]
          · exact List.mem_cons_of_mem c (h1 x hx)
        · intro x hx
          rw [← hb] at hx
          exact List.mem_cons_of_mem c (h2 x hx)

theorem pySplit2_subset (sep : Char) (l : List Char) :
    ∀ p ∈ pySplit2 sep l, ∀ x ∈ p, x ∈ l := by
  intro p hp x hx
  cases h1 : splitOnce sep l with
  | none =>
    have hps : pySplit2 sep l = [l] := by simp only [pySplit2, h1]
    rw [hps] at hp
    simp at hp
    subst hp
    exact hx
  | some ar =>
    obtain ⟨a, r⟩ := ar
    obtain ⟨ha, hr⟩ := splitOnce_subset sep l a r h1
    cases h2 : splitOnce sep r with
    | none =>
      have hps : pySplit2 sep l = [a, r] := by simp only [pySplit2, h1, h2]
      rw [hps] at hp
      simp at hp
      rcases hp with h | h
      · exact ha x (h ▸ hx)
      · exact hr x (h ▸ hx)
    | some bc =>
      obtain ⟨b, c⟩ := bc
      obtain ⟨hb, hc⟩ := splitOnce_subset sep r b c h2
      have hps : pySplit2 sep l = [a, b, c] := by simp only [pySplit2, h1, h2]
      rw [hps] at hp
      simp at hp
      rcases hp with h | h | h
      · exact ha x (h ▸ hx)
      · exact hr x (hb x (h ▸ hx))
      · exact hr x (hc x (h ▸ hx))

theorem lineTriple_text_subset (line : List Char) (t : SLine) :
    lineTriple line = some t → ∀ x ∈ t.text, x ∈ line := by
  intro h x hx
  unfold lineTriple at h
  by_cases hb : (line == []) = true
  · simp [hb] at h
  · simp only [hb, Bool.false_eq_true, if_false] at h
    cases hs : pySplit2 ':' line with
    | nil => rw [hs] at h; simp at h
    | cons p1 ps =>
      rw [hs] at h
      cases ps with
      | nil => simp at h
      | cons p2 ps2 =>
        cases ps2 with
        | nil => simp at h
        | cons p3 ps3 =>
          cases ps3 with
          | nil =>
            have h' : (pyInt p2).map (fun i => SLine.mk p1 i p3) = some t := h
            cases hi : pyInt p2 with
            | none => rw [hi] at h'; simp at h'
            | some i =>
              rw [hi] at h'
              simp at h'
              have ht : t.text = p3 := by rw [← h']
              exact pySplit2_subset ':' line p3
                (by rw [hs]; simp) x (ht ▸ hx)
          | cons p4 ps4 => simp at h

theorem validLines_no_newline (output : List Char) :
    ∀ t ∈ validLines output, '\n' ∉ t.text := by
  intro t ht hmem
  unfold validLines at ht
  rcases List.mem_filterMap.mp ht with ⟨line, hline, htr⟩
  exact splitOnChar_not_mem '\n' (pyStrip output) line hline
    (lineTriple_text_subset line t htr '\n' hmem)

theorem splitOnChar_no_sep (sep : Char) :
    ∀ x : List Char, sep ∉ x → splitOnChar sep x = [x] := by
  intro x
  induction x with
  | nil => intro _; rfl
  | cons c cs ih =>
    intro h
    have hne : (c == sep) = false := by
      simp only [beq_eq_false_iff_ne, ne_eq]
      intro he
      exact h (he ▸ List.mem_cons_self c cs)
    have hcs : sep ∉ cs := fun hm => h (List.mem_cons_of_mem c hm)
    simp [splitOnChar, hne, ih hcs]

theorem splitOnChar_append_sep (sep : Char) (r : List Char) :
    ∀ x : List Char, sep ∉ x →
      splitOnChar sep (x ++ sep :: r) = x :: splitOnChar sep r := by
  intro x
  induction x with
  | nil => intro _; simp [splitOnChar]
  | cons c cs ih =>
    intro h
    have hne : (c == sep) = false := by
      simp only [beq_eq_false_iff_ne, ne_eq]
      intro he
      exact h (he ▸ List.mem_cons_self c cs)
    have hcs : sep ∉ cs := fun hm => h (List.mem_cons_of_mem c hm)
    simp [splitOnChar, hne, ih hcs]

theorem segments_count (ts : List SLine) :
    ∀ x : List Char, '\n' ∉ x → (∀ t ∈ ts, '\n' ∉ t.text) →
      (splitOnChar '\n' (x ++ tailJoin ts)).length = ts.length + 1 := by
  induction ts with
  | nil => intro x hx _; simp [tailJoin, splitOnChar_no_sep '\n' x hx]
  | cons t ts ih =>
    intro x hx hts
    rw [show tailJoin (t :: ts) = '\n' :: (t.text ++ tailJoin ts) from rfl,
      splitOnChar_append_sep '\n' (t.text ++ tailJoin ts) x hx]
    simp [ih t.text (hts t (List.mem_cons_self t ts))
      (fun u hu => hts u (List.mem_cons_of_mem t hu))]

theorem runsOf_mem {α : Type} (ext : α → α → Bool) :
    ∀ l run, run ∈ runsOf ext l → run ≠ [] ∧ ∀ a ∈ run, a ∈ l := by
  intro l
  induction l with
  | nil => intro run h; simp [runsOf] at h
  | cons a l ih =>
    intro run h
    cases l with
    | nil =>
      simp [runsOf] at h
      subst h
      exact ⟨by simp, by simp⟩
    | cons b rest =>
      simp only [runsOf] at h
      cases hr : runsOf ext (b :: rest) with
      | nil =>
        rw [hr] at h
        simp at h
        subst h
        refine ⟨by simp, ?_⟩
        intro y hy
        simp at hy
        simp [hy]
      | cons r rs =>
        rw [hr] at h
        have h' : run ∈ (if ext a b = true then (a :: r) :: rs
            else [a] :: r :: rs) := h
        have hmr : ∀ q ∈ r :: rs, q ≠ [] ∧ ∀ y ∈ q, y ∈ b :: rest := by
          intro q hq
          exact ih q (hr ▸ hq)
        by_cases hb : (ext a b) = true
        · rw [if_pos hb] at h'
          rcases List.mem_cons.mp h' with h2 | h2
          · subst h2
            refine ⟨by simp, ?_⟩
            intro y hy
            rcases List.mem_cons.mp hy with hy | hy
            · simp [hy]
            · exact List.mem_cons_of_mem a
                ((hmr r (List.mem_cons_self r rs)).2 y hy)
          · obtain ⟨hne, hsub⟩ := hmr run (List.mem_cons_of_mem r h2)
            exact ⟨hne, fun y hy => List.mem_cons_of_mem a (hsub y hy)⟩
        · rw [if_neg hb] at h'
          rcases List.mem_cons.mp h' with h2 | h2
          · subst h2
            refine ⟨by simp, ?_⟩
            intro y hy
            simp at hy
            simp [hy]
          · obtain ⟨hne, hsub⟩ := hmr run h2
            exact ⟨hne, fun y hy => List.mem_cons_of_mem a (hsub y hy)⟩

theorem runsOf_flatten {α : Type} (ext : α → α → Bool) :
    ∀ l, (runsOf ext l).flatten = l := by
  intro l
  induction l with
  | nil => rfl
  | cons a l ih =>
    cases l with
    | nil => rfl
    | cons b rest =>
      simp only [runsOf]
      cases hr : runsOf ext (b :: rest) with
      | nil =>
        rw [hr] at ih
        simp at ih
      | cons r rs =>
        rw [hr] at ih
        show (if ext a b = true then (a :: r) :: rs
            else [a] :: r :: rs).flatten = a :: b :: rest
        by_cases hb : (ext a b) = true
        · rw [if_pos hb]
          simp only [List.flatten_cons] at ih ⊢
          simp [← ih]
        · rw [if_neg hb]
          simp only [List.flatten_cons] at ih ⊢
          simp [← ih]

/-! ### Image cache (`Seagoat._create_image_tag`, `Seagoat._get_or_build_image`)

The Docker image store is a list of existing image tags; `hashlib.sha256`
is an external library, modelled as an arbitrary function from the context
bytes to the hex digest characters. -/

/-- Model of `Seagoat._create_image_tag`: tag = fixed repository name plus the first
16 characters of the SHA-256 hex digest of the build-context bytes. -/
def create_image_tag (sha256hex : List Char → List Char)
    (build_context : List Char) : List Char :=
  ("repo_read_mcp/seagoat:").data ++ (sha256hex build_context).take 16

/-- Model of `Seagoat._get_or_build_image` acting on the image store: look the tag up
(`images.get`); on `ImageNotFound` build, which registers the tag. Returns
the store afterwards and the number of real builds performed. -/
def get_or_build_image (store : List (List Char)) (tag : List Char) :
    List (List Char) × Nat :=
  if tag ∈ store then (store, 0)
  else (store ++ [tag], 1)

/-- The `resolveOrBuild` operation of the spec (`Seagoat.prepare`'s tag-then-build step):
computes the tag from the context bytes and resolves or builds the image.
Returns the tag of the image handed back, the store, and the build count. -/
def resolveOrBuild (sha256hex : List Char → List Char)
    (build_context : List Char) (store : List (List Char)) :
    List Char × List (List Char) × Nat :=
  let tag := create_image_tag sha256hex build_context
  (tag, (get_or_build_image store tag).1, (get_or_build_image store tag).2)

/-! ### Polling loop (`Seagoat._wait_for_analysis_completion`) -/

/-- The completion marker `Seagoat.ANALYSIS_COMPLETE_MESSAGE`. -/
def ANALYSIS_COMPLETE_MESSAGE : List Char := ("Analyzed all chunks!").data

/-- The Docker container status the loop polls for. -/
def STATUS_RUNNING : List Char := ("running").data

/-- Default `timeout` parameter (300 seconds). -/
def WAIT_TIMEOUT_DEFAULT : Nat := 300

/-- Default `poll_interval` parameter, in tenths-free time units (1 second),
so the deadline admits `WAIT_TIMEOUT_DEFAULT` polls. -/
def POLL_INTERVAL_DEFAULT : Nat := 1

/-- One poll's observation of the container: `container.status` after
`reload()`, and the cumulative `container.logs()`. -/
structure Obs where
  status : List Char
  logs : List Char

/-- What the loop body may do to the container: it only reads (`reload`,
`logs`), so this world records whether a stop was ever issued. -/
structure ContainerWorld where
  stopIssued : Bool
deriving Repr, DecidableEq

inductive WaitOutcome where
  /-- the marker appeared: analysis complete, return normally. -/
  | analyzed
  /-- Python `Exception("Container stopped unexpectedly during analysis.")`,
  with the logs read (and printed) at that moment. -/
  | stoppedUnexpectedly (logs : List Char)
  /-- Python `TimeoutError` after the deadline elapsed. -/
  | timeoutExpired
deriving Repr, DecidableEq

/-- The polling loop of `_wait_for_analysis_completion`: at poll `k`
(while the deadline allows `fuel` more polls) reload and observe the
container; a non-running status raises immediately, otherwise the marker is
searched in the cumulative logs; else sleep and poll again. The world is
threaded unchanged: the loop never stops the container. -/
def wait_go (trace : Nat → Obs) (w : ContainerWorld) :
    Nat → Nat → WaitOutcome × ContainerWorld
  | 0, _ => (.timeoutExpired, w)
  | fuel + 1, k =>
    let o := trace k
    if o.status ≠ STATUS_RUNNING then (.stoppedUnexpectedly o.logs, w)
    else if pyIn ANALYSIS_COMPLETE_MESSAGE o.logs then (.analyzed, w)
    else wait_go trace w fuel (k + 1)

/-- Model of `Seagoat._wait_for_analysis_completion`, with `fuel` the number of polls
the `time.time() - start_time < timeout` window admits. -/
def wait_for_analysis_completion (trace : Nat → Obs) (w : ContainerWorld)
    (fuel : Nat) : WaitOutcome × ContainerWorld :=
  wait_go trace w fuel 0

/-! ### Query execution (`Seagoat.search`) -/

/-- Result of `container.exec_run(["seagoat", query])`. -/
structure ExecResult where
  exit_code : Int
  output : List Char
deriving Repr, DecidableEq

inductive SearchOutcome where
  /-- Python `Exception("Container is not running. Please call the .run() method...")`. -/
  | containerNotRunning
  /-- normal return: the hits, plus the raw error outputs printed on the
  observability sink for failed executions. -/
  | ok (hits : List SearchHit) (errPrinted : List (List Char))
deriving Repr, DecidableEq

/-- Model of `Seagoat.search`: the container is modelled by its `exec_run` behaviour.
Besides the outcome, returns how many `exec_run` calls and how many
`_parse_search_results` calls were made. -/
def search (container : Option (List Char → ExecResult)) (query : List Char) :
    SearchOutcome × Nat × Nat :=
  match container with
  | none => (.containerNotRunning, 0, 0)
  | some execRun =>
    let r := execRun query
    if r.exit_code ≠ 0 then (.ok [] [r.output], 1, 0)
    else (.ok (parse_search_results r.output) [], 1, 1)

/-! ### Orchestrator state and `run()` -/

/-- The attributes of a `Seagoat` object that the claims touch: the cached
image (by tag), the container (by its `exec_run` behaviour), and the tag. -/
structure SeagoatState where
  image : Option (List Char)
  container : Option (List Char → ExecResult)
  tag : List Char

/-- Model of `Seagoat.prepare`: no-op when an image is already held; otherwise
compute the tag and get-or-build the image. -/
def prepare (sha256hex : List Char → List Char) (build_context : List Char)
    (s : SeagoatState) (store : List (List Char)) :
    SeagoatState × List (List Char) × Nat :=
  match s.image with
  | some _ => (s, store, 0)
  | none =>
    let (tag, store1, builds) := resolveOrBuild sha256hex build_context store
    ({ s with tag := tag, image := some tag }, store1, builds)

/-- Model of `Seagoat.run`: prepare, launch the container (`_run_container` sets
`self.container`), then block in the polling loop. The outcome reports
whether `run` returned normally (`analyzed`) or raised. -/
def run_model (sha256hex : List Char → List Char) (build_context : List Char)
    (store : List (List Char)) (spawn : List Char → ExecResult)
    (trace : Nat → Obs) (fuel : Nat) (s : SeagoatState) :
    SeagoatState × List (List Char) × WaitOutcome :=
  let (s1, store1, _builds) := prepare sha256hex build_context s store
  let s2 := { s1 with container := some spawn }
  let (res, _w) := wait_for_analysis_completion trace ⟨false⟩ fuel
  (s2, store1, res)

/-! ### Cleanup (`Seagoat.cleanup`) -/

/-- One Docker container as the cleanup path sees it. -/
structure ContainerRec where
  cid : Nat
  running : Bool
deriving Repr, DecidableEq

/-- The Docker daemon state cleanup touches: containers and image tags. -/
structure DockerWorld where
  images : List (List Char)
  containers : List ContainerRec
deriving Repr, DecidableEq

/-- Docker `container.stop()`: stops the container when it exists; otherwise the
runtime raises `errors.NotFound` (second component `false`). -/
def stop_container (w : DockerWorld) (cid : Nat) : DockerWorld × Bool :=
  if w.containers.any (fun c => c.cid == cid) then
    ({ w with containers := (w.containers.map
        (fun c => if c.cid == cid then { c with running := false } else c)) },
      true)
  else (w, false)

/-- Model of `Seagoat.cleanup`: nothing to do without a container; otherwise stop it,
treating `NotFound` as success (`except errors.NotFound: pass`). The
`remove()` call is commented out in the source, and the image is
intentionally never removed. The second component is the uncaught error, if
any. -/
def cleanup (container : Option Nat) (w : DockerWorld) :
    DockerWorld × Option (List Char) :=
  match container with
  | none => (w, none)
  | some cid =>
    let (w1, _found) := stop_container w cid
    (w1, none)

/-! ### `Repository.read_file_lines` (`repository.py`) -/

/-- The fields of `FileChunk` the claim touches; `lines` of the file are the
`readlines()` output (each keeping its trailing newline). -/
structure FileChunk where
  file_path : List Char
  start_line : Int
  end_line : Int
  content : List Char
deriving Repr, DecidableEq

/-- Model of `Repository.read_file_lines` on an existing readable file given as its
`readlines()` list: clamp `start_line`/`end_line`, slice
(`lines[start - 1 : end]`), and `"".join` the selected lines. -/
def read_file_lines (file_path : List Char) (lines : List (List Char))
    (start_line end_line : Int) : FileChunk :=
  let n : Int := lines.length
  let start := max 1 (min start_line n)
  let e := max start (min end_line n)
  let selected := (lines.drop (start - 1).toNat).take (e - (start - 1)).toNat
  ⟨file_path, start, e, selected.flatten⟩

/-! ### Claim theorems -/

/-- C1: resolving-or-building twice with identical build-context bytes and
the same digest function performs at most one real build; the second call is
a cache hit that builds nothing and leaves the store unchanged; both calls
compute the same tag, which is the fixed repository name plus the SHA-256
hex digest of the full context bytes truncated to 16 characters. -/
theorem c1_cache_idempotence (sha256hex : List Char → List Char)
    (build_context : List Char) (store : List (List Char)) :
    (resolveOrBuild sha256hex build_context store).1 =
      (resolveOrBuild sha256hex build_context
        (resolveOrBuild sha256hex build_context store).2.1).1 ∧
    (resolveOrBuild sha256hex build_context
      (resolveOrBuild sha256hex build_context store).2.1).2.2 = 0 ∧
    (resolveOrBuild sha256hex build_context store).2.2 +
      (resolveOrBuild sha256hex build_context
        (resolveOrBuild sha256hex build_context store).2.1).2.2 ≤ 1 ∧
    (resolveOrBuild sha256hex build_context
      (resolveOrBuild sha256hex build_context store).2.1).2.1 =
      (resolveOrBuild sha256hex build_context store).2.1 ∧
    (resolveOrBuild sha256hex build_context store).1 =
      ("repo_read_mcp/seagoat:").data ++ (sha256hex build_context).take 16 := by
  simp only [resolveOrBuild, get_or_build_image]
  set tg := create_image_tag sha256hex build_context with htg
  by_cases hmem : tg ∈ store
  · simp only [if_pos hmem]
    refine ⟨trivial, trivial, by norm_num, trivial, by rw [htg]; rfl⟩
  · simp only [if_neg hmem]
    have hmem2 : tg ∈ store ++ [tg] := by simp
    simp only [if_pos hmem2]
    refine ⟨trivial, trivial, by norm_num, trivial, by rw [htg]; rfl⟩

/-- C2: the transliterated parser agrees with the spec's reference
algorithm (split on the first two colons, skip blank and non-integer lines,
extend on same file and consecutive number, flush otherwise and at the end)
on every input; in particular two consecutive same-file lines merge into one
hit while a number gap or a file change yields two hits. -/
theorem c2_parser_reference_algorithm :
    (∀ output : List Char, parse_search_results output = parse_spec output) ∧
    parse_search_results (("a.py:1:def f():\na.py:2:    pass").data) =
      [⟨("a.py").data, 1, 2, ("def f():\n    pass").data⟩] ∧
    parse_search_results (("a.py:1:x\na.py:5:y").data) =
      [⟨("a.py").data, 1, 1, ("x").data⟩, ⟨("a.py").data, 5, 5, ("y").data⟩] ∧
    parse_search_results (("a.py:1:x\nb.py:2:y").data) =
      [⟨("a.py").data, 1, 1, ("x").data⟩, ⟨("b.py").data, 2, 2, ("y").data⟩] :=
  ⟨parse_eq_spec, by decide, by decide, by decide⟩

/-- C7: hits are the maximal contiguous runs of the valid input lines in
first-seen order (the runs tile the valid lines in order); each hit's code
joins its constituent line texts with single line breaks; and for every hit,
`end_line - start_line + 1` equals the number of line-break-separated
segments of its code, so `start_line ≤ end_line` always holds. -/
theorem c7_parser_output_invariant (output : List Char) :
    parse_search_results output =
      (runsOf lineContig (validLines output)).map hitOfRun ∧
    (runsOf lineContig (validLines output)).flatten = validLines output ∧
    ∀ h ∈ parse_search_results output,
      h.start_line ≤ h.end_line ∧
      h.end_line - h.start_line + 1 =
        ((splitOnChar '\n' h.code).length : Int) := by
  refine ⟨by rw [parse_eq_spec]; rfl, runsOf_flatten _ _, ?_⟩
  intro h hmem
  rw [parse_eq_spec] at hmem
  unfold parse_spec at hmem
  rcases List.mem_map.mp hmem with ⟨run, hrun, hEq⟩
  obtain ⟨hne, hsub⟩ := runsOf_mem lineContig (validLines output) run hrun
  cases run with
  | nil => exact absurd rfl hne
  | cons t ts =>
    subst hEq
    rw [show hitOfRun (t :: ts) =
      ⟨t.file, t.num, t.num + ts.length, joinNL ((t :: ts).map SLine.text)⟩
      from rfl]
    constructor
    · show t.num ≤ t.num + (ts.length : Int)
      omega
    · show t.num + (ts.length : Int) - t.num + 1 =
        ((splitOnChar '\n' (joinNL ((t :: ts).map SLine.text))).length : Int)
      rw [List.map_cons, joinNL_map_text ts t.text,
        segments_count ts t.text
          (validLines_no_newline output t (hsub t (List.mem_cons_self t ts)))
          (fun u hu => validLines_no_newline output u
            (hsub u (List.mem_cons_of_mem t hu)))]
      push_cast
      omega

/-- C7 witness: the invariant evaluated on a concrete two-line input. -/
theorem c7_parser_output_invariant_witness :
    (1 : Int) ≤ 2 ∧ (2 : Int) - 1 + 1 =
      ((splitOnChar '\n' (("x\ny").data)).length : Int) :=
  (c7_parser_output_invariant (("a.py:1:x\na.py:2:y").data)).2.2
    ⟨("a.py").data, 1, 2, ("x\ny").data⟩ (by decide)

theorem wait_go_timeout (trace : Nat → Obs) (w : ContainerWorld) :
    ∀ fuel k,
      (∀ j, j < fuel → (trace (k + j)).status = STATUS_RUNNING ∧
        pyIn ANALYSIS_COMPLETE_MESSAGE (trace (k + j)).logs = false) →
      wait_go trace w fuel k = (.timeoutExpired, w) := by
  intro fuel
  induction fuel with
  | zero => intro k _; rfl
  | succ fuel ih =>
    intro k h
    have h0 := h 0 (Nat.succ_pos fuel)
    rw [Nat.add_zero] at h0
    simp only [wait_go]
    rw [if_neg (by simp [h0.1]), if_neg (by simp [h0.2])]
    exact ih (k + 1) (fun j hj => by
      have hh := h (j + 1) (Nat.succ_lt_succ hj)
      rwa [show k + (j + 1) = k + 1 + j from by omega] at hh)

/-- C5: if every poll before the deadline observes a running container whose
cumulative logs do not contain the completion marker, the loop raises
`TimeoutError`, and the container world is returned untouched — in
particular no stop was issued, so the instance is left running. -/
theorem c5_timeout_leaves_instance_running (trace : Nat → Obs)
    (w : ContainerWorld) (fuel : Nat)
    (hrun : ∀ k, k < fuel → (trace k).status = STATUS_RUNNING ∧
      pyIn ANALYSIS_COMPLETE_MESSAGE (trace k).logs = false) :
    wait_for_analysis_completion trace w fuel = (.timeoutExpired, w) :=
  wait_go_timeout trace w fuel 0 (fun j hj => by simpa using hrun j hj)

/-- C5 witness: with the default 300-poll deadline, a container that stays
running and never prints the marker makes the loop time out. -/
theorem c5_timeout_witness :
    wait_for_analysis_completion (fun _ => ⟨STATUS_RUNNING, []⟩) ⟨false⟩
      WAIT_TIMEOUT_DEFAULT = (.timeoutExpired, ⟨false⟩) :=
  c5_timeout_leaves_instance_running (fun _ => ⟨STATUS_RUNNING, []⟩) ⟨false⟩
    WAIT_TIMEOUT_DEFAULT (fun _ _ =>
      ⟨rfl, show pyIn ANALYSIS_COMPLETE_MESSAGE [] = false by decide⟩)

theorem wait_go_skip (trace : Nat → Obs) (w : ContainerWorld) :
    ∀ k fuel i,
      (∀ j, j < k → (trace (i + j)).status = STATUS_RUNNING ∧
        pyIn ANALYSIS_COMPLETE_MESSAGE (trace (i + j)).logs = false) →
      k ≤ fuel →
      wait_go trace w fuel i = wait_go trace w (fuel - k) (i + k) := by
  intro k
  induction k with
  | zero => intro fuel i _ _; rfl
  | succ k ih =>
    intro fuel i h hk
    cases fuel with
    | zero => exact absurd hk (by omega)
    | succ fuel =>
      have h0 := h 0 (Nat.succ_pos k)
      rw [Nat.add_zero] at h0
      simp only [wait_go]
      rw [if_neg (by simp [h0.1]), if_neg (by simp [h0.2])]
      have := ih fuel (i + 1) (fun j hj => by
        have hh := h (j + 1) (Nat.succ_lt_succ hj)
        rwa [show i + (j + 1) = i + 1 + j from by omega] at hh)
        (Nat.le_of_succ_le_succ hk)
      rwa [show i + 1 + k = i + (k + 1) from by omega,
        show fuel - k = fuel + 1 - (k + 1) from by omega] at this

/-- C3 (amended): the first poll whose run state is not active raises the
stopped-unexpectedly error with the logs read at that moment — regardless of
whether the completion marker appears in those logs; the loop returns
`analyzed` only when a poll observes the marker while the state is still
active. -/
theorem c3_failure_detection (trace : Nat → Obs) (w : ContainerWorld)
    (fuel k : Nat) (hk : k < fuel)
    (hbefore : ∀ j, j < k → (trace j).status = STATUS_RUNNING ∧
      pyIn ANALYSIS_COMPLETE_MESSAGE (trace j).logs = false) :
    ((trace k).status ≠ STATUS_RUNNING →
      wait_for_analysis_completion trace w fuel =
        (.stoppedUnexpectedly (trace k).logs, w)) ∧
    ((trace k).status = STATUS_RUNNING →
      pyIn ANALYSIS_COMPLETE_MESSAGE (trace k).logs = true →
      wait_for_analysis_completion trace w fuel = (.analyzed, w)) := by
  have hs := wait_go_skip trace w k fuel 0
    (fun j hj => by simpa using hbefore j hj) (Nat.le_of_lt hk)
  rw [Nat.zero_add] at hs
  have hfk : fuel - k ≠ 0 := by omega
  cases hfk2 : fuel - k with
  | zero => exact absurd hfk2 hfk
  | succ m =>
    rw [hfk2] at hs
    constructor
    · intro hst
      rw [wait_for_analysis_completion, hs]
      simp only [wait_go]
      rw [if_pos hst]
    · intro hst hmk
      rw [wait_for_analysis_completion, hs]
      simp only [wait_go]
      rw [if_neg (by simp [hst]), if_pos hmk]

/-- C3 amended-claim witness: a container observed as exited at the first
poll makes the loop raise the stopped-unexpectedly error. -/
theorem c3_failure_detection_witness :
    wait_for_analysis_completion
      (fun _ => ⟨("exited").data, ANALYSIS_COMPLETE_MESSAGE⟩) ⟨false⟩
      WAIT_TIMEOUT_DEFAULT =
      (.stoppedUnexpectedly ANALYSIS_COMPLETE_MESSAGE, ⟨false⟩) :=
  (c3_failure_detection (fun _ => ⟨("exited").data, ANALYSIS_COMPLETE_MESSAGE⟩)
    ⟨false⟩ WAIT_TIMEOUT_DEFAULT 0 (by decide)
    (fun j hj => absurd hj (Nat.not_lt_zero j))).1 (by decide)

/-- C3 counterexample: the claim as stated is false — when the container
stops between polls after printing the marker, the marker is in the
cumulative output yet the loop raises the failure error instead of
returning `analyzed`. -/
theorem c3_counterexample :
    pyIn ANALYSIS_COMPLETE_MESSAGE
      ((fun _ => Obs.mk (("exited").data) ANALYSIS_COMPLETE_MESSAGE) 0).logs
        = true ∧
    wait_for_analysis_completion
      (fun _ => Obs.mk (("exited").data) ANALYSIS_COMPLETE_MESSAGE) ⟨false⟩ 1 =
      (.stoppedUnexpectedly ANALYSIS_COMPLETE_MESSAGE, ⟨false⟩) ∧
    (WaitOutcome.stoppedUnexpectedly ANALYSIS_COMPLETE_MESSAGE ≠
      WaitOutcome.analyzed) :=
  ⟨by decide, by decide, by decide⟩

/-- C4 (amended): `search` raises its not-running error, and performs no
execution, exactly when no container has been started (`self.container` is
`None`); once a container exists, `search` always performs the one-shot
execution — the guard does not check that analysis reached `ANALYZED`. -/
theorem c4_search_guard (query : List Char)
    (execRun : List Char → ExecResult) :
    search none query = (.containerNotRunning, 0, 0) ∧
    (search (some execRun) query).2.1 = 1 := by
  refine ⟨rfl, ?_⟩
  simp only [search]
  split <;> rfl

/-- C4 counterexample: after a `run()` that raised `Timeout` — a state
earlier than `ANALYZED` — the claim demands `NotReady` with no execution,
but `search` executes the query inside the instance and returns its parsed
hits. -/
theorem c4_counterexample :
    (run_model (fun _ => []) [] [] (fun _ => ⟨0, ("a.py:1:x").data⟩)
        (fun _ => ⟨STATUS_RUNNING, []⟩) 1 ⟨none, none, []⟩).2.2 =
      .timeoutExpired ∧
    search (run_model (fun _ => []) [] [] (fun _ => ⟨0, ("a.py:1:x").data⟩)
        (fun _ => ⟨STATUS_RUNNING, []⟩) 1 ⟨none, none, []⟩).1.container
        (("q").data) =
      (.ok [⟨("a.py").data, 1, 1, ("x").data⟩] [], 1, 1) :=
  ⟨rfl, rfl⟩

/-- C6: a query whose one-shot execution exits non-zero yields an empty
result set instead of raising, the raw error output is recorded on the
print sink, and the parser is not invoked. -/
theorem c6_swallowed_query_failure (execRun : List Char → ExecResult)
    (query : List Char) (h : (execRun query).exit_code ≠ 0) :
    search (some execRun) query = (.ok [] [(execRun query).output], 1, 0) := by
  simp only [search]
  rw [if_pos h]

/-- C6 witness: a concrete failing execution. -/
theorem c6_swallowed_query_failure_witness :
    search (some (fun _ => ⟨1, ("boom").data⟩)) (("q").data) =
      (.ok [] [("boom").data], 1, 0) :=
  c6_swallowed_query_failure (fun _ => ⟨1, ("boom").data⟩) (("q").data)
    (by decide)

/-- C8: `cleanup` never raises: not when no instance was ever started (then
it is a no-op), not when invoked twice in a row, and not when the container
is already gone — the runtime's not-found signal is treated as success and
the world is left untouched. -/
theorem c8_cleanup_idempotence (container : Option Nat) (w : DockerWorld) :
    (cleanup container w).2 = none ∧
    (cleanup container (cleanup container w).1).2 = none ∧
    (container = none → cleanup container w = (w, none)) ∧
    (∀ cid, container = some cid →
      w.containers.any (fun c => c.cid == cid) = false →
      cleanup container w = (w, none)) := by
  refine ⟨?_, ?_, ?_, ?_⟩
  · cases container <;> rfl
  · cases container <;> rfl
  · intro h; subst h; rfl
  · intro cid hc hnone
    subst hc
    simp only [cleanup, stop_container, hnone]
    simp

/-- C8 witness: cleanup applied with no instance, and with a dangling
container id over an empty daemon state. -/
theorem c8_cleanup_idempotence_witness :
    (cleanup none ⟨[], []⟩).2 = none ∧
    cleanup none ⟨[], []⟩ = (⟨[], []⟩, none) ∧
    cleanup (some 1) ⟨[], []⟩ = (⟨[], []⟩, none) :=
  ⟨(c8_cleanup_idempotence none ⟨[], []⟩).1,
   (c8_cleanup_idempotence none ⟨[], []⟩).2.2.1 rfl,
   (c8_cleanup_idempotence (some 1) ⟨[], []⟩).2.2.2 1 rfl (by decide)⟩

theorem map_stop_no_match (cid : Nat) :
    ∀ cs : List ContainerRec, cs.any (fun c => c.cid == cid) = false →
      cs.map (fun c => if c.cid == cid then { c with running := false } else c)
        = cs := by
  intro cs
  induction cs with
  | nil => intro _; rfl
  | cons c cs ih =>
    intro h
    simp only [List.any_cons, Bool.or_eq_false_iff] at h
    simp only [List.map_cons, h.1, ih h.2]
    simp

/-- C9 counterexample: the claim says cleanup removes the Instance, but
after cleanup on a world holding the (running) container, the container is
still present — merely stopped, since `remove()` is commented out. -/
theorem c9_counterexample :
    ((cleanup (some 1) ⟨[("t").data], [⟨1, true⟩]⟩).1).containers =
      [⟨1, false⟩] ∧
    ([⟨1, false⟩] : List ContainerRec) ≠ [] :=
  ⟨by decide, by decide⟩

/-- C9 (amended): when an Instance exists, cleanup stops it but does not
remove it (the container list keeps the same members, with the targeted one
no longer running), and it never deletes any cached image. -/
theorem c9_cleanup_frame (container : Option Nat) (w : DockerWorld) :
    ((cleanup container w).1).images = w.images ∧
    ((cleanup container w).1).containers =
      (match container with
       | none => w.containers
       | some cid => w.containers.map
           (fun c => if c.cid == cid then { c with running := false }
             else c)) := by
  cases container with
  | none => exact ⟨rfl, rfl⟩
  | some cid =>
    simp only [cleanup, stop_container]
    by_cases h : (w.containers.any (fun c => c.cid == cid)) = true
    · rw [if_pos h]
      exact ⟨rfl, rfl⟩
    · rw [if_neg h]
      refine ⟨rfl, ?_⟩
      rw [map_stop_no_match cid w.containers (by
        rw [Bool.not_eq_true] at h
        exact h)]

theorem filterMap_get_none {α : Type} (l : List α) :
    ∀ k a, l.length ≤ a →
      (List.range' (a + 1) k).filterMap (fun i => l.get? (i - 1)) = [] := by
  intro k
  induction k with
  | zero => intro a _; rfl
  | succ k ih =>
    intro a ha
    rw [List.range'_succ]
    simp only [List.filterMap_cons, Nat.add_sub_cancel]
    rw [List.get?_eq_none.mpr ha]
    exact ih (a + 1) (Nat.le_succ_of_le ha)

theorem slice_filterMap {α : Type} (l : List α) :
    ∀ k a, (List.range' (a + 1) k).filterMap (fun i => l.get? (i - 1)) =
      (l.drop a).take k := by
  intro k
  induction k with
  | zero => intro a; simp
  | succ k ih =>
    intro a
    rw [List.range'_succ]
    simp only [List.filterMap_cons, Nat.add_sub_cancel]
    cases hget : l.get? a with
    | none =>
      have hlen : l.length ≤ a := List.get?_eq_none.mp hget
      rw [List.drop_eq_nil_of_le hlen, filterMap_get_none l k (a + 1)
        (Nat.le_succ_of_le hlen)]
      simp
    | some x =>
      have hlt : a < l.length := by
        by_contra hle
        rw [List.get?_eq_none.mpr (by omega)] at hget
        exact Option.noConfusion hget
      have hdrop : l.drop a = l.get ⟨a, hlt⟩ :: l.drop (a + 1) := by
        rw [List.drop_eq_getElem_cons hlt]
        rfl
      have hx : x = l.get ⟨a, hlt⟩ := by
        have h2 := List.get?_eq_get hlt
        rw [hget] at h2
        exact Option.some.inj h2
      rw [hdrop, ih (a + 1), hx]
      rfl

/-- C10: for an existing readable file with `n` lines and arbitrary integer
bounds, `read_file_lines` returns the chunk whose start is
`max 1 (min start_line n)`, whose end is `max start (min end_line n)` — so
`1 ≤ start ≤ end` always holds — and whose content concatenates exactly the
file's lines numbered `start` through `end` (1-based, missing numbers beyond
the file contributing nothing). -/
theorem c10_read_file_lines_clamping (file_path : List Char)
    (lines : List (List Char)) (start_line end_line : Int) :
    (read_file_lines file_path lines start_line end_line).start_line =
      max 1 (min start_line lines.length) ∧
    (read_file_lines file_path lines start_line end_line).end_line =
      max (max 1 (min start_line lines.length)) (min end_line lines.length) ∧
    1 ≤ (read_file_lines file_path lines start_line end_line).start_line ∧
    (read_file_lines file_path lines start_line end_line).start_line ≤
      (read_file_lines file_path lines start_line end_line).end_line ∧
    (read_file_lines file_path lines start_line end_line).content =
      ((List.range'
          (read_file_lines file_path lines start_line end_line).start_line.toNat
          ((read_file_lines file_path lines start_line end_line).end_line -
            (read_file_lines file_path lines start_line end_line).start_line
              + 1).toNat).filterMap
        (fun i => lines.get? (i - 1))).flatten := by
  have hs : (read_file_lines file_path lines start_line end_line).start_line =
      max 1 (min start_line lines.length) := rfl
  have he : (read_file_lines file_path lines start_line end_line).end_line =
      max (max 1 (min start_line lines.length))
        (min end_line lines.length) := rfl
  have h1 : (1 : Int) ≤ max 1 (min start_line lines.length) :=
    le_max_left 1 _
  have hse : max 1 (min start_line lines.length) ≤
      max (max 1 (min start_line lines.length)) (min end_line lines.length) :=
    le_max_left _ _
  refine ⟨hs, he, hs ▸ h1, by rw [hs, he]; exact hse, ?_⟩
  rw [hs, he]
  have hcontent :
      (read_file_lines file_path lines start_line end_line).content =
      ((lines.drop ((max 1 (min start_line lines.length)) - 1).toNat).take
        ((max (max 1 (min start_line lines.length))
            (min end_line lines.length)) -
          ((max 1 (min start_line lines.length)) - 1)).toNat).flatten := rfl
  rw [hcontent]
  have harg1 : (max 1 (min start_line lines.length)).toNat =
      ((max 1 (min start_line lines.length)) - 1).toNat + 1 := by omega
  have harg2 : ((max (max 1 (min start_line lines.length))
        (min end_line lines.length)) -
      (max 1 (min start_line lines.length)) + 1).toNat =
      ((max (max 1 (min start_line lines.length))
          (min end_line lines.length)) -
        ((max 1 (min start_line lines.length)) - 1)).toNat := by omega
  rw [harg1, harg2, slice_filterMap lines]

end RepoReadMcp
